import Mathlib

/-!
# Verification of the tokenization / masked-span-sampling pipeline

The repository is a tutorial notebook (`guides/ipynb/keras_nlp/transformer_pretraining.ipynb`)
whose algorithmic content is the sub-word tokenization and masked-language-model
span-sampling pipeline it configures:

* a `WordPieceTokenizer` with `sequence_length = SEQ_LENGTH = 128`, `lowercase = True`,
  `strip_accents = True`;
* a `MaskedLMMaskGenerator` with `mask_selection_rate = MASK_RATE = 0.25` and
  `mask_selection_length = PREDICTIONS_PER_SEQ = 32`.

The notebook delegates both algorithms to a library whose code is not part of this
repository, so the two components are modelled here from the specification's
algorithmic contract (§4.1 and §4.2 of the design document) and the verification
is carried out against those models.
-/

namespace TransformerPretraining

set_option maxRecDepth 100000

/-- Error taxonomy of the pipeline: `configError` is raised at construction for
invalid parameters, `invalidTokenError` by `decode` for an out-of-range id. -/
inductive PipelineError where
  | configError : PipelineError
  | invalidTokenError : PipelineError
deriving DecidableEq, Repr

instance {ε α : Type} [DecidableEq ε] [DecidableEq α] : DecidableEq (Except ε α) :=
  fun a b =>
    match a, b with
    | .ok x, .ok y =>
      if h : x = y then .isTrue (congrArg Except.ok h)
      else .isFalse (fun g => h (Except.ok.inj g))
    | .error x, .error y =>
      if h : x = y then .isTrue (congrArg Except.error h)
      else .isFalse (fun g => h (Except.error.inj g))
    | .ok _, .error _ => .isFalse (fun g => Except.noConfusion g)
    | .error _, .ok _ => .isFalse (fun g => Except.noConfusion g)

/-! ## Vocabulary-driven tokenizer (modelled from the spec, §4.1) -/

/-- Modelled from the spec: tokenizer configuration. The vocabulary is an ordered
list of sub-word strings (represented as character lists); `sequence_length` is the
fixed output length; `norm` is the per-character normalization that the
`lowercase` / ` strip_accents` options induce (the notebook sets both to `True`,
delegating the actual character tables to the library, so the normalization map is
a parameter of the model); `unk_id` and `pad_id` are the resolved indices of the
reserved unknown-token and padding-token entries. -/
structure TokConfig where
  vocab : List (List Char)
  sequence_length : Nat
  norm : Char → Char
  unk_id : Nat
  pad_id : Nat

/-- Modelled from the spec: validity of a tokenizer configuration — non-empty,
duplicate-free vocabulary with the reserved entries resolved by exact string
lookup ("[PAD]", "[UNK]", "[MASK]" in the notebook's vocabulary). -/
def TokConfig.Valid (cfg : TokConfig) : Prop :=
  cfg.vocab ≠ [] ∧ cfg.vocab.Nodup ∧
  cfg.vocab.getD cfg.pad_id [] = "[PAD]".data ∧
  cfg.vocab.getD cfg.unk_id [] = "[UNK]".data ∧
  "[MASK]".data ∈ cfg.vocab ∧
  cfg.pad_id < cfg.vocab.length ∧ cfg.unk_id < cfg.vocab.length

instance (cfg : TokConfig) : Decidable cfg.Valid := by
  unfold TokConfig.Valid; infer_instance

/-- Modelled from the spec: split a continuation-marked vocabulary entry
`"##" ++ core` into its core; word-initial entries return `none`. -/
def splitCont : List Char → Option (List Char)
  | '#' :: '#' :: core => some core
  | _ => none

/-- Modelled from the spec: does vocabulary entry `e` match a prefix of the
remaining fragment `rest`? A word-initial fragment (`isCont = false`) matches a
non-continuation entry that is literally a prefix; a mid-word fragment
(`isCont = true`) matches the continuation-marked form `"##" ++ core` with `core`
a prefix. Matches consume at least one character (empty entries never match).
Returns the consumed piece. -/
def matchPiece (isCont : Bool) (e rest : List Char) : Option (List Char) :=
  if isCont then
    match splitCont e with
    | some core => if core ≠ [] ∧ core.isPrefixOf rest then some core else none
    | none => none
  else
    if e ≠ [] ∧ splitCont e = none ∧ e.isPrefixOf rest then some e else none

/-- Modelled from the spec: scan the vocabulary from index `i` upward and return
the longest matching entry as `(index, consumed piece)`; on ties in length the
lowest vocabulary index wins. -/
def bestMatchFrom (isCont : Bool) (rest : List Char) : Nat → List (List Char) →
    Option (Nat × List Char)
  | _, [] => none
  | i, e :: es =>
    match matchPiece isCont e rest, bestMatchFrom isCont rest (i + 1) es with
    | none, r => r
    | some p, none => some (i, p)
    | some p, some (j, q) => if p.length < q.length then some (j, q) else some (i, p)

/-- Modelled from the spec: greedy longest-prefix match over the whole vocabulary. -/
def bestMatch (vocab : List (List Char)) (isCont : Bool) (rest : List Char) :
    Option (Nat × List Char) :=
  bestMatchFrom isCont rest 0 vocab

/-- Modelled from the spec: repeatedly match pieces of a word; `none` when some
fragment has no matching prefix (the unknown-token case). `fuel` bounds the
recursion; every match consumes at least one character so `rest.length` fuel
suffices. -/
def segGo (vocab : List (List Char)) : Nat → Bool → List Char → Option (List Nat)
  | _, _, [] => some []
  | 0, _, _ :: _ => none
  | fuel + 1, isCont, c :: cs =>
    match bestMatch vocab isCont (c :: cs) with
    | none => none
    | some (i, p) =>
      match segGo vocab fuel true ((c :: cs).drop p.length) with
      | none => none
      | some ids => some (i :: ids)

/-- Modelled from the spec: segment one whitespace-delimited word into sub-word
ids; if greedy matching fails anywhere the entire word becomes the single
unknown-token id. -/
def segmentWord (vocab : List (List Char)) (unk : Nat) (w : List Char) : List Nat :=
  match segGo vocab w.length false w with
  | some ids => ids
  | none => [unk]

/-- Modelled from the spec: split normalized text into whitespace-delimited words
(`cur` accumulates the current word reversed). -/
def wordsAux : List Char → List Char → List (List Char)
  | cur, [] => if cur = [] then [] else [cur.reverse]
  | cur, c :: cs =>
    if c.isWhitespace then
      if cur = [] then wordsAux [] cs else cur.reverse :: wordsAux [] cs
    else
      wordsAux (c :: cur) cs

/-- Modelled from the spec: the whitespace-delimited words of a text. -/
def splitWords (s : List Char) : List (List Char) :=
  wordsAux [] s

/-- Modelled from the spec: normalize then segment every word and concatenate
the per-word id sequences, before truncation/padding. -/
def encodeRaw (cfg : TokConfig) (text : List Char) : List Nat :=
  ((splitWords (text.map cfg.norm)).map (segmentWord cfg.vocab cfg.unk_id)).flatten

/-- Modelled from the spec: truncate to `len` ids, or pad with the padding id. -/
def padTrunc (len pad : Nat) (l : List Nat) : List Nat :=
  l.take len ++ List.replicate (len - l.length) pad

/-- Modelled from the spec: `encode` — normalization, segmentation, then
truncation/padding to the fixed `sequence_length`. Never fails. -/
def encode (cfg : TokConfig) (text : List Char) : List Nat :=
  padTrunc cfg.sequence_length cfg.pad_id (encodeRaw cfg text)

/-- Modelled from the spec: one `decode` step — continuation entries join
directly to the accumulated text, word-initial entries are joined with a single
space. -/
def decodeStep (vocab : List (List Char)) (acc : List Char) (i : Nat) : List Char :=
  let e := vocab.getD i []
  match splitCont e with
  | some core => acc ++ core
  | none => if acc = [] then e else acc ++ ' ' :: e

/-- Modelled from the spec: decode a list of in-range ids, dropping
padding-token entries. -/
def decodeTokens (vocab : List (List Char)) (padId : Nat) (ids : List Nat) : List Char :=
  (ids.filter (fun i => i ≠ padId)).foldl (decodeStep vocab) []

/-- Modelled from the spec: `decode` — fails with `invalidTokenError` when some
id is outside `[0, vocabulary_size)`, otherwise maps ids back to text. -/
def decode (vocab : List (List Char)) (padId : Nat) (ids : List Nat) :
    Except PipelineError (List Char) :=
  if ids.all (fun i => i < vocab.length) then
    .ok (decodeTokens vocab padId ids)
  else
    .error .invalidTokenError

/-- Modelled from the spec: the single-space join of a word list — the
whitespace-normal form that `decode ∘ encode` can reproduce. -/
def joinWords : List (List Char) → List Char
  | [] => []
  | [w] => w
  | w :: ws => w ++ ' ' :: joinWords ws

/-! ## Masked-span sampler (modelled from the spec, §4.2) -/

/-- Modelled from the spec: sampler configuration — `mask_selection_rate` is a
fraction in `(0, 1]`, represented exactly by its numerator `rate_num` and
denominator `rate_den` (the notebook's `MASK_RATE = 0.25` is `1 / 4`);
`mask_selection_length` is `PREDICTIONS_PER_SEQ`; the padding-token id marks
ineligible slots. -/
structure MaskerConfig where
  vocabulary_size : Nat
  rate_num : Nat
  rate_den : Nat
  mask_selection_length : Nat
  mask_token_id : Nat
  padding_token_id : Nat
deriving DecidableEq, Repr

/-- The selection rate of a sampler configuration, as the rational
`rate_num / rate_den`. -/
def MaskerConfig.rate (cfg : MaskerConfig) : ℚ :=
  (cfg.rate_num : ℚ) / (cfg.rate_den : ℚ)

/-- Modelled from the spec: sampler construction — fails with `configError` iff
`mask_selection_rate` is outside `(0, 1]` (for the fraction `num / den`, `den > 0`:
iff `¬(0 < num ∧ num ≤ den)`) or `mask_selection_length ≤ 0`. -/
def mkMasker (vocabulary_size : Nat) (rate_num rate_den : Nat)
    (mask_selection_length : ℤ) (mask_token_id padding_token_id : Nat) :
    Except PipelineError MaskerConfig :=
  if 0 < rate_num ∧ rate_num ≤ rate_den ∧ 0 < mask_selection_length then
    .ok ⟨vocabulary_size, rate_num, rate_den, mask_selection_length.toNat,
         mask_token_id, padding_token_id⟩
  else
    .error .configError

/-- Modelled from the spec: the mask plan — positions, original ids and
validity weights, each padded to `mask_selection_length`, together with the
token sequence with selected positions replaced by the mask token. -/
structure MaskPlan where
  token_ids : List Nat
  positions : List Nat
  original_ids : List Nat
  weights : List ℚ
deriving DecidableEq, Repr

/-- Modelled from the spec: `round(rate * count)` for the fraction
`num / den` (round half up), computed in integer arithmetic:
`⌊num·count/den + 1/2⌋ = (2·num·count + den) / (2·den)`. -/
def rateRound (num den count : Nat) : Nat :=
  (2 * num * count + den) / (2 * den)

/-- Modelled from the spec: the eligible positions of a token sequence — those
not holding the padding-token id. -/
def eligiblePositions (cfg : MaskerConfig) (tokenIds : List Nat) : List Nat :=
  (List.range tokenIds.length).filter (fun i => tokenIds.getD i 0 ≠ cfg.padding_token_id)

/-- Modelled from the spec: the target mask count
`min(mask_selection_length, round(mask_selection_rate * eligible_count))`,
floored at 0. -/
def targetCount (cfg : MaskerConfig) (tokenIds : List Nat) : Nat :=
  min cfg.mask_selection_length
    (rateRound cfg.rate_num cfg.rate_den (eligiblePositions cfg tokenIds).length)

/-- Modelled from the spec: sample `n` distinct elements from `pool` without
replacement, driven by the injected randomness stream `rng` (consumed at
successive indices starting from `k`): each step removes the element at a
random index of the remaining pool. -/
def sampleDistinct (rng : Nat → Nat) : Nat → Nat → List Nat → List Nat
  | _, 0, _ => []
  | _, _ + 1, [] => []
  | k, n + 1, p :: ps =>
    let x := (p :: ps).getD (rng k % (p :: ps).length) 0
    x :: sampleDistinct rng (k + 1) n ((p :: ps).erase x)

/-- Modelled from the spec: the selected positions — target-count distinct
eligible positions, sorted ascending. -/
def chosenPositions (cfg : MaskerConfig) (tokenIds : List Nat) (rng : Nat → Nat) :
    List Nat :=
  List.insertionSort (· ≤ ·)
    (sampleDistinct rng 0 (targetCount cfg tokenIds) (eligiblePositions cfg tokenIds))

/-- Modelled from the spec: `mask` — select positions, replace them with the
mask token, record original ids and weight 1, and fill the unused trailing
slots with position 0 / token id 0 / weight 0 up to `mask_selection_length`. -/
def maskImpl (cfg : MaskerConfig) (tokenIds : List Nat) (rng : Nat → Nat) : MaskPlan :=
  let chosen := chosenPositions cfg tokenIds rng
  let fill := cfg.mask_selection_length - chosen.length
  { token_ids := (List.range tokenIds.length).map
      (fun i => if i ∈ chosen then cfg.mask_token_id else tokenIds.getD i 0)
    positions := chosen ++ List.replicate fill 0
    original_ids := chosen.map (fun i => tokenIds.getD i 0) ++ List.replicate fill 0
    weights := List.replicate chosen.length 1 ++ List.replicate fill 0 }

/-- The number of real (weight 1) entries of the plan produced for an input. -/
def realCount (cfg : MaskerConfig) (tokenIds : List Nat) (rng : Nat → Nat) : Nat :=
  (chosenPositions cfg tokenIds rng).length

/-- The example vocabulary of the spec's concrete tokenizer scenario. -/
def exVocab : List (List Char) :=
  ["[PAD]".data, "[UNK]".data, "[MASK]".data, "un".data, "##able".data, "do".data]

/-- The example tokenizer of the spec's concrete scenario: `sequence_length = 5`,
identity normalization (the text is already lowercase ASCII). -/
def exTok : TokConfig :=
  { vocab := exVocab, sequence_length := 5, norm := id, unk_id := 1, pad_id := 0 }

/-- The sampler of the spec's concrete masking scenario:
`mask_selection_rate = 0.5`, `mask_selection_length = 3`, padding id 0. -/
def exMasker : MaskerConfig :=
  { vocabulary_size := 6, rate_num := 1, rate_den := 2, mask_selection_length := 3,
    mask_token_id := 2, padding_token_id := 0 }

/-- The notebook's sampler configuration: `MASK_RATE = 0.25`,
`PREDICTIONS_PER_SEQ = 32`, over a `SEQ_LENGTH = 128` token stream. -/
def notebookMasker (vocabSz maskId : Nat) : MaskerConfig :=
  { vocabulary_size := vocabSz, rate_num := 1, rate_den := 4, mask_selection_length := 32,
    mask_token_id := maskId, padding_token_id := 0 }

/-! ## Supporting lemmas: masked-span sampler -/

theorem getD_mem {l : List Nat} {j : Nat} (d : Nat) (h : j < l.length) : l.getD j d ∈ l := by
  rw [List.getD_eq_getElem l d h]
  exact List.getElem_mem h

theorem sampleDistinct_subset (rng : Nat → Nat) :
    ∀ (n k : Nat) (pool : List Nat), sampleDistinct rng k n pool ⊆ pool := by
  intro n
  induction n with
  | zero => intro k pool; simp [sampleDistinct]
  | succ m ih =>
    intro k pool
    match pool with
    | [] => simp [sampleDistinct]
    | p :: ps =>
      simp only [sampleDistinct]
      intro x hx
      rcases List.mem_cons.mp hx with h | h
      · subst h
        exact getD_mem 0 (Nat.mod_lt _ (by simp))
      · exact List.erase_subset _ _ (ih _ _ h)

theorem sampleDistinct_nodup (rng : Nat → Nat) :
    ∀ (n k : Nat) (pool : List Nat), pool.Nodup → (sampleDistinct rng k n pool).Nodup := by
  intro n
  induction n with
  | zero => intro k pool _; simp [sampleDistinct]
  | succ m ih =>
    intro k pool hnd
    match pool with
    | [] => simp [sampleDistinct]
    | p :: ps =>
      simp only [sampleDistinct]
      refine List.nodup_cons.mpr ⟨fun hmem => ?_, ih _ _ (hnd.erase _)⟩
      have hsub := sampleDistinct_subset rng m (k + 1)
        ((p :: ps).erase ((p :: ps).getD (rng k % (p :: ps).length) 0))
      have := (hnd.mem_erase_iff).mp (hsub hmem)
      exact this.1 rfl

theorem sampleDistinct_length (rng : Nat → Nat) :
    ∀ (n k : Nat) (pool : List Nat),
      (sampleDistinct rng k n pool).length = min n pool.length := by
  intro n
  induction n with
  | zero => intro k pool; simp [sampleDistinct]
  | succ m ih =>
    intro k pool
    match pool with
    | [] => simp [sampleDistinct]
    | p :: ps =>
      simp only [sampleDistinct, List.length_cons]
      rw [ih]
      have hx : (p :: ps).getD (rng k % (p :: ps).length) 0 ∈ p :: ps :=
        getD_mem 0 (Nat.mod_lt _ (by simp))
      have hlen := List.length_erase_add_one hx
      simp only [List.length_cons] at hlen
      omega

theorem eligible_nodup (cfg : MaskerConfig) (tokenIds : List Nat) :
    (eligiblePositions cfg tokenIds).Nodup :=
  (List.nodup_range _).filter _

theorem mem_eligible {cfg : MaskerConfig} {tokenIds : List Nat} {i : Nat} :
    i ∈ eligiblePositions cfg tokenIds ↔
      i < tokenIds.length ∧ tokenIds.getD i 0 ≠ cfg.padding_token_id := by
  simp [eligiblePositions, List.mem_filter, List.mem_range]

theorem chosen_perm (cfg : MaskerConfig) (tokenIds : List Nat) (rng : Nat → Nat) :
    List.Perm (chosenPositions cfg tokenIds rng)
      (sampleDistinct rng 0 (targetCount cfg tokenIds) (eligiblePositions cfg tokenIds)) :=
  List.perm_insertionSort _ _

theorem chosen_nodup (cfg : MaskerConfig) (tokenIds : List Nat) (rng : Nat → Nat) :
    (chosenPositions cfg tokenIds rng).Nodup :=
  ((chosen_perm cfg tokenIds rng).symm.nodup
    (sampleDistinct_nodup rng _ _ _ (eligible_nodup cfg tokenIds)))

theorem chosen_sorted (cfg : MaskerConfig) (tokenIds : List Nat) (rng : Nat → Nat) :
    (chosenPositions cfg tokenIds rng).Sorted (· < ·) :=
  (List.sorted_insertionSort (· ≤ ·) _).lt_of_le (chosen_nodup cfg tokenIds rng)

theorem chosen_subset_eligible (cfg : MaskerConfig) (tokenIds : List Nat) (rng : Nat → Nat) :
    chosenPositions cfg tokenIds rng ⊆ eligiblePositions cfg tokenIds := by
  intro x hx
  exact sampleDistinct_subset rng _ _ _ ((chosen_perm cfg tokenIds rng).mem_iff.mp hx)

theorem chosen_length (cfg : MaskerConfig) (tokenIds : List Nat) (rng : Nat → Nat) :
    (chosenPositions cfg tokenIds rng).length =
      min (targetCount cfg tokenIds) (eligiblePositions cfg tokenIds).length := by
  rw [(chosen_perm cfg tokenIds rng).length_eq]
  exact sampleDistinct_length rng _ _ _

theorem targetCount_le_length (cfg : MaskerConfig) (tokenIds : List Nat) :
    targetCount cfg tokenIds ≤ cfg.mask_selection_length :=
  Nat.min_le_left _ _

theorem chosen_length_le (cfg : MaskerConfig) (tokenIds : List Nat) (rng : Nat → Nat) :
    (chosenPositions cfg tokenIds rng).length ≤ cfg.mask_selection_length := by
  rw [chosen_length]
  exact le_trans (Nat.min_le_left _ _) (targetCount_le_length cfg tokenIds)

theorem rateRound_le (num den count : Nat) (hle : num ≤ den) (hden : 0 < den) :
    rateRound num den count ≤ count := by
  unfold rateRound
  have hb : 0 < 2 * den := by omega
  have hlt : (2 * num * count + den) / (2 * den) < count + 1 := by
    rw [Nat.div_lt_iff_lt_mul hb]
    have hmul : num * count ≤ den * count := Nat.mul_le_mul_right count hle
    have e1 : 2 * num * count = 2 * (num * count) := by ring
    have e2 : (count + 1) * (2 * den) = 2 * (den * count) + 2 * den := by ring
    omega
  omega

theorem rateRound_cast (num den count : Nat) (hden : 0 < den) :
    (rateRound num den count : ℤ) = ⌊(num : ℚ) / den * count + 1 / 2⌋ := by
  have hd0 : (den : ℚ) ≠ 0 := Nat.cast_ne_zero.mpr hden.ne'
  have h : (num : ℚ) / den * count + 1 / 2
      = ((2 * num * count + den : ℕ) : ℚ) / ((2 * den : ℕ) : ℚ) := by
    push_cast
    field_simp
    ring
  rw [h, Rat.floor_natCast_div_natCast]
  unfold rateRound
  exact (Int.ofNat_tdiv _ _).symm

theorem rateRound_zero (num den : Nat) : rateRound num den 0 = 0 := by
  unfold rateRound
  rcases Nat.eq_zero_or_pos den with h | h
  · subst h; simp
  · exact Nat.div_eq_of_lt (by omega)

theorem eligible_all_padding (cfg : MaskerConfig) (tokenIds : List Nat)
    (h : ∀ x ∈ tokenIds, x = cfg.padding_token_id) :
    eligiblePositions cfg tokenIds = [] := by
  unfold eligiblePositions
  rw [List.filter_eq_nil_iff]
  intro i hi
  simp only [decide_eq_true_eq, ne_eq, Decidable.not_not]
  exact h _ (getD_mem 0 (List.mem_range.mp hi))

theorem chosen_of_target_zero (cfg : MaskerConfig) (tokenIds : List Nat) (rng : Nat → Nat)
    (h : targetCount cfg tokenIds = 0) : chosenPositions cfg tokenIds rng = [] := by
  unfold chosenPositions
  rw [h]
  simp [sampleDistinct]

/-! ## Claim theorems: masked-span sampler -/

/-- C2: for every input token sequence and sampler configuration, the produced
`MaskPlan` has `positions`, `original_ids` and `weights` of length exactly
`mask_selection_length`; the real (weight 1) entries come first, are strictly
ascending, and select only non-padding slots of the input; the unused trailing
slots are filled with position 0, token id 0 and weight 0. -/
theorem mask_plan_invariants (cfg : MaskerConfig) (tokenIds : List Nat) (rng : Nat → Nat) :
    ((maskImpl cfg tokenIds rng).positions.length = cfg.mask_selection_length) ∧
    ((maskImpl cfg tokenIds rng).original_ids.length = cfg.mask_selection_length) ∧
    ((maskImpl cfg tokenIds rng).weights.length = cfg.mask_selection_length) ∧
    ((maskImpl cfg tokenIds rng).positions =
      chosenPositions cfg tokenIds rng ++
        List.replicate (cfg.mask_selection_length - realCount cfg tokenIds rng) 0) ∧
    ((maskImpl cfg tokenIds rng).original_ids =
      (chosenPositions cfg tokenIds rng).map (fun i => tokenIds.getD i 0) ++
        List.replicate (cfg.mask_selection_length - realCount cfg tokenIds rng) 0) ∧
    ((maskImpl cfg tokenIds rng).weights =
      List.replicate (realCount cfg tokenIds rng) (1 : ℚ) ++
        List.replicate (cfg.mask_selection_length - realCount cfg tokenIds rng) (0 : ℚ)) ∧
    List.Sorted (· < ·) (chosenPositions cfg tokenIds rng) ∧
    (∀ p ∈ chosenPositions cfg tokenIds rng,
      p < tokenIds.length ∧ tokenIds.getD p 0 ≠ cfg.padding_token_id) := by
  have hle := chosen_length_le cfg tokenIds rng
  refine ⟨?_, ?_, ?_, rfl, rfl, rfl, chosen_sorted cfg tokenIds rng, ?_⟩
  · simp only [maskImpl, List.length_append, List.length_replicate]
    omega
  · simp only [maskImpl, List.length_append, List.length_map, List.length_replicate]
    omega
  · simp only [maskImpl, List.length_append, List.length_replicate]
    omega
  · intro p hp
    exact mem_eligible.mp (chosen_subset_eligible cfg tokenIds rng hp)

/-- C3: the number of real (weight 1) entries equals
`min(mask_selection_length, round(rate · eligible_count))` and never exceeds the
eligible count; in the spec's concrete scenario (`token_ids = [5,6,7,8,0,0]`,
rate `1/2`, length `3`) exactly 2 real entries and 1 weight-0 filler entry are
produced, and no selected position is 4 or 5. -/
theorem realCount_spec (cfg : MaskerConfig) (tokenIds : List Nat) (rng : Nat → Nat)
    (hnum : 0 < cfg.rate_num) (hrate : cfg.rate_num ≤ cfg.rate_den) :
    ((realCount cfg tokenIds rng : ℤ) =
      min (cfg.mask_selection_length : ℤ)
        ⌊cfg.rate * ((eligiblePositions cfg tokenIds).length : ℚ) + 1 / 2⌋) ∧
    realCount cfg tokenIds rng ≤ (eligiblePositions cfg tokenIds).length ∧
    realCount exMasker [5, 6, 7, 8, 0, 0] rng = 2 ∧
    exMasker.mask_selection_length - realCount exMasker [5, 6, 7, 8, 0, 0] rng = 1 ∧
    (∀ p ∈ chosenPositions exMasker [5, 6, 7, 8, 0, 0] rng, p ≠ 4 ∧ p ≠ 5) := by
  have hden : 0 < cfg.rate_den := lt_of_lt_of_le hnum hrate
  have hrr := rateRound_le cfg.rate_num cfg.rate_den
    (eligiblePositions cfg tokenIds).length hrate hden
  have hcount : realCount cfg tokenIds rng = targetCount cfg tokenIds := by
    unfold realCount
    rw [chosen_length]
    exact Nat.min_eq_left (le_trans (Nat.min_le_right _ _) hrr)
  have hconc : realCount exMasker [5, 6, 7, 8, 0, 0] rng = 2 := by
    unfold realCount
    rw [chosen_length]
    decide
  refine ⟨?_, ?_, hconc, by rw [hconc]; rfl, ?_⟩
  · rw [hcount]
    unfold targetCount
    rw [Nat.cast_min, rateRound_cast _ _ _ hden]
    rfl
  · rw [hcount]
    exact le_trans (Nat.min_le_right _ _) hrr
  · intro p hp
    have h := mem_eligible.mp (chosen_subset_eligible exMasker [5, 6, 7, 8, 0, 0] rng hp)
    constructor
    · rintro rfl; exact h.2 rfl
    · rintro rfl; exact h.2 rfl

/-- Witness for C3 at the spec's concrete scenario. -/
theorem realCount_spec_witness :
    0 < exMasker.rate_num ∧ exMasker.rate_num ≤ exMasker.rate_den ∧
      realCount exMasker [5, 6, 7, 8, 0, 0] (fun n => n) = 2 :=
  ⟨by decide, by decide,
    (realCount_spec exMasker [5, 6, 7, 8, 0, 0] (fun n => n)
      (by decide) (by decide)).2.2.1⟩

/-- C7: construction fails with `configError` iff the selection rate lies
outside `(0, 1]` or the selection length is ≤ 0; for an input whose positions
are all padding slots the target count is 0 and the plan consists entirely of
weight-0 filler entries. -/
theorem masker_construction_spec :
    (∀ (v num den mid pid : Nat) (len : ℤ), 0 < den →
      ((mkMasker v num den len mid pid = .error .configError) ↔
        (¬(0 < (num : ℚ) / den ∧ (num : ℚ) / den ≤ 1) ∨ len ≤ 0))) ∧
    (∀ (cfg : MaskerConfig) (tokenIds : List Nat) (rng : Nat → Nat),
      (∀ x ∈ tokenIds, x = cfg.padding_token_id) →
      targetCount cfg tokenIds = 0 ∧
      (maskImpl cfg tokenIds rng).positions = List.replicate cfg.mask_selection_length 0 ∧
      (maskImpl cfg tokenIds rng).original_ids =
        List.replicate cfg.mask_selection_length 0 ∧
      (maskImpl cfg tokenIds rng).weights =
        List.replicate cfg.mask_selection_length (0 : ℚ)) := by
  constructor
  · intro v num den mid pid len hden
    have hdenQ : (0 : ℚ) < den := by exact_mod_cast hden
    unfold mkMasker
    split
    · rename_i h
      obtain ⟨h1, h2, h3⟩ := h
      simp only [reduceCtorEq, false_iff]
      push_neg
      exact ⟨⟨div_pos (by exact_mod_cast h1) hdenQ,
        (div_le_one hdenQ).mpr (by exact_mod_cast h2)⟩, h3⟩
    · rename_i h
      simp only [true_iff]
      push_neg at h
      by_cases h1 : 0 < num
      · by_cases h2 : num ≤ den
        · exact Or.inr (h h1 h2)
        · refine Or.inl (fun hcon => h2 ?_)
          have := (div_le_one hdenQ).mp hcon.2
          exact_mod_cast this
      · refine Or.inl (fun hcon => absurd hcon.1 ?_)
        have hz : num = 0 := by omega
        rw [hz]
        simp
  · intro cfg tokenIds rng hall
    have helig := eligible_all_padding cfg tokenIds hall
    have htarget : targetCount cfg tokenIds = 0 := by
      unfold targetCount
      rw [helig]
      simp [rateRound_zero]
    have hchosen := chosen_of_target_zero cfg tokenIds rng htarget
    refine ⟨htarget, ?_, ?_, ?_⟩ <;>
      simp [maskImpl, realCount, hchosen]

/-- Witness for C7: a rejected rate (3/2) and an accepted configuration, plus an
all-padding input producing target count 0. -/
theorem masker_construction_witness :
    (0 : Nat) < 2 ∧
      ((mkMasker 6 3 2 3 2 0 = .error .configError) ↔
        (¬(0 < ((3 : Nat) : ℚ) / ((2 : Nat) : ℚ) ∧ ((3 : Nat) : ℚ) / ((2 : Nat) : ℚ) ≤ 1) ∨
          (3 : ℤ) ≤ 0)) ∧
      targetCount exMasker [0, 0] = 0 :=
  ⟨by decide, masker_construction_spec.1 6 3 2 2 0 3 (by decide),
    (masker_construction_spec.2 exMasker [0, 0] (fun n => n) (by decide)).1⟩

/-- C8: the sampler is a deterministic function of its input and the injected
randomness state — two invocations of `mask` with identical input and
(pointwise) identical randomness state return identical `MaskPlan`s. -/
theorem mask_deterministic (cfg : MaskerConfig) (tokenIds : List Nat)
    (rng₁ rng₂ : Nat → Nat) (h : ∀ n, rng₁ n = rng₂ n) :
    maskImpl cfg tokenIds rng₁ = maskImpl cfg tokenIds rng₂ := by
  rw [funext h]

/-- Witness for C8 at the spec's concrete scenario. -/
theorem mask_deterministic_witness :
    maskImpl exMasker [5, 6, 7, 8, 0, 0] (fun n => n) =
      maskImpl exMasker [5, 6, 7, 8, 0, 0] (fun n => n) :=
  mask_deterministic exMasker [5, 6, 7, 8, 0, 0] (fun n => n) (fun n => n) (fun _ => rfl)

/-- C10: under the notebook's configuration (`SEQ_LENGTH = 128`,
`MASK_RATE = 0.25`, `PREDICTIONS_PER_SEQ = 32`), an input of 128 tokens with no
padding slots has target count `round(0.25 · 128) = 32 = mask_selection_length`,
so all 32 plan slots are real masks of weight 1 with no filler entries. -/
theorem notebook_full_mask (vocabSz maskId : Nat) (tokenIds : List Nat) (rng : Nat → Nat)
    (hlen : tokenIds.length = 128) (hpad : ∀ x ∈ tokenIds, x ≠ 0) :
    realCount (notebookMasker vocabSz maskId) tokenIds rng = 32 ∧
    (maskImpl (notebookMasker vocabSz maskId) tokenIds rng).weights =
      List.replicate 32 (1 : ℚ) := by
  have helig : eligiblePositions (notebookMasker vocabSz maskId) tokenIds =
      List.range 128 := by
    unfold eligiblePositions
    rw [hlen]
    rw [List.filter_eq_self.mpr]
    intro i hi
    simp only [decide_eq_true_eq]
    exact hpad _ (getD_mem 0 (by rw [hlen]; exact List.mem_range.mp hi))
  have hcount : realCount (notebookMasker vocabSz maskId) tokenIds rng = 32 := by
    unfold realCount
    rw [chosen_length]
    unfold targetCount
    rw [helig]
    show min (min 32 (rateRound 1 4 (List.range 128).length)) (List.range 128).length = 32
    decide
  refine ⟨hcount, ?_⟩
  have := mask_plan_invariants (notebookMasker vocabSz maskId) tokenIds rng
  rw [this.2.2.2.2.2.1, hcount]
  simp [notebookMasker]

/-- Witness for C10: a concrete 128-token padding-free input. -/
theorem notebook_full_mask_witness :
    (List.replicate 128 7).length = 128 ∧ (∀ x ∈ List.replicate 128 7, x ≠ 0) ∧
      realCount (notebookMasker 100 2) (List.replicate 128 7) (fun n => 5 * n + 1) = 32 :=
  ⟨by decide, by decide,
    (notebook_full_mask 100 2 (List.replicate 128 7) (fun n => 5 * n + 1)
      (by decide) (by decide)).1⟩

/-! ## Supporting lemmas: tokenizer -/

theorem splitCont_some {e c : List Char} (h : splitCont e = some c) :
    e = '#' :: '#' :: c := by
  unfold splitCont at h
  split at h
  · rename_i heq
    cases h
    rfl
  · exact absurd h (by simp)

theorem matchPiece_false_some {e rest p : List Char}
    (h : matchPiece false e rest = some p) :
    e = p ∧ p ≠ [] ∧ splitCont p = none ∧ p <+: rest := by
  unfold matchPiece at h
  simp only [Bool.false_eq_true, if_false] at h
  split at h
  · rename_i hc
    cases h
    exact ⟨rfl, hc.1, hc.2.1, List.isPrefixOf_iff_prefix.mp hc.2.2⟩
  · exact absurd h (by simp)

theorem matchPiece_true_some {e rest p : List Char}
    (h : matchPiece true e rest = some p) :
    e = '#' :: '#' :: p ∧ p ≠ [] ∧ p <+: rest := by
  unfold matchPiece at h
  simp only [if_true] at h
  split at h
  · rename_i core hsc
    split at h
    · rename_i hc
      cases h
      exact ⟨splitCont_some hsc, hc.1, List.isPrefixOf_iff_prefix.mp hc.2⟩
    · exact absurd h (by simp)
  · exact absurd h (by simp)

theorem matchPiece_consumes {isCont : Bool} {e rest p : List Char}
    (h : matchPiece isCont e rest = some p) : p ≠ [] ∧ p <+: rest := by
  cases isCont
  · have := matchPiece_false_some h
    exact ⟨this.2.1, this.2.2.2⟩
  · have := matchPiece_true_some h
    exact ⟨this.2.1, this.2.2⟩

theorem bestMatchFrom_sound (isCont : Bool) (rest : List Char) :
    ∀ (es : List (List Char)) (i j : Nat) (p : List Char),
      bestMatchFrom isCont rest i es = some (j, p) →
      ∃ k, k < es.length ∧ j = i + k ∧ matchPiece isCont (es.getD k []) rest = some p := by
  intro es
  induction es with
  | nil => intro i j p h; exact absurd h (by simp [bestMatchFrom])
  | cons e es ih =>
    intro i j p h
    rcases hm : matchPiece isCont e rest with _ | p'
    · simp only [bestMatchFrom, hm] at h
      obtain ⟨k, hk, hj, hmk⟩ := ih (i + 1) j p h
      refine ⟨k + 1, ?_, by omega, by simpa [List.getD_cons_succ] using hmk⟩
      simp only [List.length_cons]
      omega
    · rcases hr : bestMatchFrom isCont rest (i + 1) es with _ | ⟨j', q'⟩
      · simp only [bestMatchFrom, hm, hr] at h
        obtain ⟨rfl, rfl⟩ := h
        exact ⟨0, by simp, by omega, by simpa using hm⟩
      · simp only [bestMatchFrom, hm, hr] at h
        split at h
        · obtain ⟨rfl, rfl⟩ := h
          obtain ⟨k, hk, hj, hmk⟩ := ih (i + 1) _ _ hr
          refine ⟨k + 1, ?_, by omega, by simpa [List.getD_cons_succ] using hmk⟩
          simp only [List.length_cons]
          omega
        · obtain ⟨rfl, rfl⟩ := h
          exact ⟨0, by simp, by omega, by simpa using hm⟩

theorem bestMatchFrom_none (isCont : Bool) (rest : List Char) :
    ∀ (es : List (List Char)) (i : Nat),
      bestMatchFrom isCont rest i es = none →
      ∀ k, k < es.length → ∀ q, matchPiece isCont (es.getD k []) rest ≠ some q := by
  intro es
  induction es with
  | nil => intro i _ k hk; simp at hk
  | cons e es ih =>
    intro i h k hk q hq
    rcases hm : matchPiece isCont e rest with _ | p'
    · simp only [bestMatchFrom, hm] at h
      cases k with
      | zero =>
        rw [List.getD_cons_zero] at hq
        rw [hq] at hm
        exact absurd hm (by simp)
      | succ k' =>
        refine ih (i + 1) h k' ?_ q (by simpa [List.getD_cons_succ] using hq)
        simp only [List.length_cons] at hk
        omega
    · rcases hr : bestMatchFrom isCont rest (i + 1) es with _ | ⟨j', q'⟩
      · simp only [bestMatchFrom, hm, hr] at h
        exact Option.noConfusion h
      · simp only [bestMatchFrom, hm, hr] at h
        split at h <;> simp at h

theorem bestMatchFrom_maximal (isCont : Bool) (rest : List Char) :
    ∀ (es : List (List Char)) (i j : Nat) (p : List Char),
      bestMatchFrom isCont rest i es = some (j, p) →
      ∀ (k : Nat), k < es.length → ∀ (q : List Char),
        matchPiece isCont (es.getD k []) rest = some q → q.length ≤ p.length := by
  intro es
  induction es with
  | nil => intro i j p _ k hk; simp at hk
  | cons e es ih =>
    intro i j p h k hk q hq
    have hk' : k = 0 ∨ ∃ k', k = k' + 1 ∧ k' < es.length := by
      simp only [List.length_cons] at hk
      rcases k with _ | k'
      · exact Or.inl rfl
      · exact Or.inr ⟨k', rfl, by omega⟩
    rcases hm : matchPiece isCont e rest with _ | p'
    · simp only [bestMatchFrom, hm] at h
      rcases hk' with rfl | ⟨k', rfl, hk'⟩
      · rw [List.getD_cons_zero] at hq
        rw [hq] at hm
        exact absurd hm (by simp)
      · exact ih (i + 1) j p h k' hk' q (by simpa [List.getD_cons_succ] using hq)
    · rcases hr : bestMatchFrom isCont rest (i + 1) es with _ | ⟨j', q'⟩
      · simp only [bestMatchFrom, hm, hr] at h
        obtain ⟨rfl, rfl⟩ := h
        rcases hk' with rfl | ⟨k', rfl, hk'⟩
        · rw [List.getD_cons_zero] at hq
          rw [hq] at hm
          cases hm
          exact le_refl _
        · exact absurd (by simpa [List.getD_cons_succ] using hq)
            (bestMatchFrom_none isCont rest es (i + 1) hr k' hk' q)
      · simp only [bestMatchFrom, hm, hr] at h
        split at h
        · rename_i hlt
          obtain ⟨rfl, rfl⟩ := h
          rcases hk' with rfl | ⟨k', rfl, hk'⟩
          · rw [List.getD_cons_zero] at hq
            rw [hq] at hm
            cases hm
            exact le_of_lt hlt
          · exact ih (i + 1) j p hr k' hk' q (by simpa [List.getD_cons_succ] using hq)
        · rename_i hge
          obtain ⟨rfl, rfl⟩ := h
          rcases hk' with rfl | ⟨k', rfl, hk'⟩
          · rw [List.getD_cons_zero] at hq
            rw [hq] at hm
            cases hm
            exact le_refl _
          · have := ih (i + 1) j' q' hr k' hk' q (by simpa [List.getD_cons_succ] using hq)
            omega

theorem bestMatch_sound {vocab : List (List Char)} {isCont : Bool} {rest : List Char}
    {j : Nat} {p : List Char} (h : bestMatch vocab isCont rest = some (j, p)) :
    j < vocab.length ∧ matchPiece isCont (vocab.getD j []) rest = some p := by
  obtain ⟨k, hk, hj, hmk⟩ := bestMatchFrom_sound isCont rest vocab 0 j p h
  have : j = k := by omega
  subst this
  exact ⟨hk, hmk⟩

theorem bestMatch_maximal {vocab : List (List Char)} {isCont : Bool} {rest : List Char}
    {j : Nat} {p : List Char} (h : bestMatch vocab isCont rest = some (j, p)) :
    ∀ (k : Nat), k < vocab.length → ∀ (q : List Char),
      matchPiece isCont (vocab.getD k []) rest = some q → q.length ≤ p.length :=
  bestMatchFrom_maximal isCont rest vocab 0 j p h

theorem segGo_ids_lt (vocab : List (List Char)) :
    ∀ (fuel : Nat) (isCont : Bool) (rest : List Char) (ids : List Nat),
      segGo vocab fuel isCont rest = some ids → ∀ i ∈ ids, i < vocab.length := by
  intro fuel
  induction fuel with
  | zero =>
    intro isCont rest ids h
    cases rest with
    | nil =>
      simp only [segGo, Option.some.injEq] at h
      subst h
      simp
    | cons c cs => simp [segGo] at h
  | succ f ih =>
    intro isCont rest ids h
    cases rest with
    | nil =>
      simp only [segGo, Option.some.injEq] at h
      subst h
      simp
    | cons c cs =>
      rcases hb : bestMatch vocab isCont (c :: cs) with _ | ⟨j, p⟩
      · simp [segGo, hb] at h
      · rcases hs : segGo vocab f true ((c :: cs).drop p.length) with _ | tl
        · simp [segGo, hb, hs] at h
        · simp only [segGo, hb, hs, Option.some.injEq] at h
          subst h
          intro i hi
          rcases List.mem_cons.mp hi with rfl | hi
          · exact (bestMatch_sound hb).1
          · exact ih true _ tl hs i hi

theorem segGo_decode_cont (vocab : List (List Char)) :
    ∀ (fuel : Nat) (rest : List Char) (ids : List Nat),
      segGo vocab fuel true rest = some ids →
      ∀ acc, ids.foldl (decodeStep vocab) acc = acc ++ rest := by
  intro fuel
  induction fuel with
  | zero =>
    intro rest ids h acc
    cases rest with
    | nil =>
      simp only [segGo, Option.some.injEq] at h
      subst h
      simp
    | cons c cs => simp [segGo] at h
  | succ f ih =>
    intro rest ids h acc
    cases rest with
    | nil =>
      simp only [segGo, Option.some.injEq] at h
      subst h
      simp
    | cons c cs =>
      rcases hb : bestMatch vocab true (c :: cs) with _ | ⟨j, p⟩
      · simp [segGo, hb] at h
      · rcases hs : segGo vocab f true ((c :: cs).drop p.length) with _ | tl
        · simp [segGo, hb, hs] at h
        · simp only [segGo, hb, hs, Option.some.injEq] at h
          subst h
          obtain ⟨he, hne, hpre⟩ := matchPiece_true_some (bestMatch_sound hb).2
          obtain ⟨t, ht⟩ := hpre
          have hpw : p ++ (c :: cs).drop p.length = c :: cs := by
            rw [← ht, List.drop_left]
          rw [List.foldl_cons]
          have hstep : decodeStep vocab acc j = acc ++ p := by
            unfold decodeStep
            rw [he]
            rfl
          rw [hstep, ih _ tl hs, List.append_assoc, hpw]

theorem segGo_decode_word (vocab : List (List Char)) (fuel : Nat) (w : List Char)
    (ids : List Nat) (hw : w ≠ []) (h : segGo vocab fuel false w = some ids) :
    (∀ acc, acc ≠ [] → ids.foldl (decodeStep vocab) acc = acc ++ ' ' :: w) ∧
    ids.foldl (decodeStep vocab) [] = w := by
  cases w with
  | nil => exact absurd rfl hw
  | cons c cs =>
    cases fuel with
    | zero => simp [segGo] at h
    | succ f =>
      rcases hb : bestMatch vocab false (c :: cs) with _ | ⟨j, p⟩
      · simp [segGo, hb] at h
      · rcases hs : segGo vocab f true ((c :: cs).drop p.length) with _ | tl
        · simp [segGo, hb, hs] at h
        · simp only [segGo, hb, hs, Option.some.injEq] at h
          subst h
          obtain ⟨he, hne, hsc, hpre⟩ := matchPiece_false_some (bestMatch_sound hb).2
          obtain ⟨t, ht⟩ := hpre
          have hpw : p ++ (c :: cs).drop p.length = c :: cs := by
            rw [← ht, List.drop_left]
          have hstep : ∀ acc, decodeStep vocab acc j =
              if acc = [] then p else acc ++ ' ' :: p := by
            intro acc
            simp only [decodeStep, he, hsc]
          constructor
          · intro acc hacc
            rw [List.foldl_cons, hstep, if_neg hacc, segGo_decode_cont vocab f _ tl hs,
              List.append_assoc, List.cons_append, hpw]
          · rw [List.foldl_cons, hstep, if_pos rfl, segGo_decode_cont vocab f _ tl hs, hpw]

theorem wordsAux_ne_nil :
    ∀ (s cur : List Char), ∀ w ∈ wordsAux cur s, w ≠ [] := by
  intro s
  induction s with
  | nil =>
    intro cur w hw
    unfold wordsAux at hw
    split at hw
    · simp at hw
    · rename_i hcur
      simp only [List.mem_singleton] at hw
      subst hw
      simpa using hcur
  | cons c cs ih =>
    intro cur w hw
    unfold wordsAux at hw
    split at hw
    · split at hw
      · exact ih [] w hw
      · rename_i hcur
        rcases List.mem_cons.mp hw with rfl | hw
        · simpa using hcur
        · exact ih [] w hw
    · exact ih (c :: cur) w hw

theorem splitWords_ne_nil (s : List Char) : ∀ w ∈ splitWords s, w ≠ [] :=
  wordsAux_ne_nil s []

theorem joinWords_cons (w : List Char) (ws : List (List Char)) (h : ws ≠ []) :
    joinWords (w :: ws) = w ++ ' ' :: joinWords ws := by
  cases ws with
  | nil => exact absurd rfl h
  | cons w' ws' => rfl

theorem decode_flatten (vocab : List (List Char)) (unk : Nat) :
    ∀ (ws : List (List Char)),
      (∀ w ∈ ws, w ≠ []) →
      (∀ w ∈ ws, (segGo vocab w.length false w).isSome) →
      (∀ acc, acc ≠ [] →
        ((ws.map (segmentWord vocab unk)).flatten).foldl (decodeStep vocab) acc
          = acc ++ (if ws = [] then [] else ' ' :: joinWords ws)) ∧
      (((ws.map (segmentWord vocab unk)).flatten).foldl (decodeStep vocab) []
          = joinWords ws) := by
  intro ws
  induction ws with
  | nil =>
    intro _ _
    exact ⟨fun acc _ => by simp [joinWords], by simp [joinWords]⟩
  | cons w ws ih =>
    intro hne hseg
    have hw : w ≠ [] := hne w (List.mem_cons_self _ _)
    obtain ⟨ids, hids⟩ := Option.isSome_iff_exists.mp (hseg w (List.mem_cons_self _ _))
    have hsw : segmentWord vocab unk w = ids := by
      unfold segmentWord
      rw [hids]
    have hdec := segGo_decode_word vocab w.length w ids hw hids
    obtain ⟨ihacc, ihnil⟩ := ih (fun w' h' => hne w' (List.mem_cons_of_mem _ h'))
      (fun w' h' => hseg w' (List.mem_cons_of_mem _ h'))
    constructor
    · intro acc hacc
      rw [List.map_cons, List.flatten_cons, List.foldl_append, hsw, hdec.1 acc hacc]
      cases ws with
      | nil => simp [joinWords]
      | cons w' ws' =>
        rw [ihacc _ (by simp), if_neg (by simp), if_neg (by simp),
          joinWords_cons w (w' :: ws') (by simp)]
        simp [List.append_assoc]
    · rw [List.map_cons, List.flatten_cons, List.foldl_append, hsw, hdec.2]
      cases ws with
      | nil => simp [joinWords]
      | cons w' ws' =>
        rw [ihacc _ hw, if_neg (by simp), joinWords_cons w (w' :: ws') (by simp)]

theorem segGo_cons_ne_nil (vocab : List (List Char)) (fuel : Nat) (isCont : Bool)
    (c : Char) (cs : List Char) (ids : List Nat)
    (h : segGo vocab fuel isCont (c :: cs) = some ids) : ids ≠ [] := by
  cases fuel with
  | zero => simp [segGo] at h
  | succ f =>
    rcases hb : bestMatch vocab isCont (c :: cs) with _ | ⟨j, p⟩
    · simp [segGo, hb] at h
    · rcases hs : segGo vocab f true ((c :: cs).drop p.length) with _ | tl
      · simp [segGo, hb, hs] at h
      · simp only [segGo, hb, hs, Option.some.injEq] at h
        subst h
        simp

theorem segmentWord_ne_nil (vocab : List (List Char)) (unk : Nat) (w : List Char)
    (hw : w ≠ []) : segmentWord vocab unk w ≠ [] := by
  unfold segmentWord
  rcases hseg : segGo vocab w.length false w with _ | ids <;> simp only [hseg]
  · simp
  · cases w with
    | nil => exact absurd rfl hw
    | cons c cs => exact segGo_cons_ne_nil vocab (c :: cs).length false c cs ids hseg

theorem encodeRaw_lt (cfg : TokConfig) (text : List Char)
    (hseg : ∀ w ∈ splitWords (text.map cfg.norm),
      (segGo cfg.vocab w.length false w).isSome) :
    ∀ i ∈ encodeRaw cfg text, i < cfg.vocab.length := by
  intro i hi
  unfold encodeRaw at hi
  rw [List.mem_flatten] at hi
  obtain ⟨l, hl, hil⟩ := hi
  rw [List.mem_map] at hl
  obtain ⟨w, hw, rfl⟩ := hl
  obtain ⟨ids, hids⟩ := Option.isSome_iff_exists.mp (hseg w hw)
  have hsw : segmentWord cfg.vocab cfg.unk_id w = ids := by
    unfold segmentWord
    rw [hids]
  rw [hsw] at hil
  exact segGo_ids_lt cfg.vocab w.length false w ids hids i hil

theorem filter_replicate_ne_self (n a : Nat) :
    (List.replicate n a).filter (fun i => i ≠ a) = [] := by
  rw [List.filter_eq_nil_iff]
  intro b hb
  simp only [decide_eq_true_eq, ne_eq, Decidable.not_not]
  exact (List.eq_of_mem_replicate hb)

/-! ## Claim theorems: tokenizer -/

/-- C1: for every tokenizer configuration and every input text (including the
empty string and texts tokenizing to more than `sequence_length` ids),
`encode` returns a sequence of length exactly `sequence_length`, by dropping
trailing ids when longer and appending the padding-token id when shorter. -/
theorem encode_length (cfg : TokConfig) (text : List Char) :
    (encode cfg text).length = cfg.sequence_length ∧
    encode cfg text =
      (encodeRaw cfg text).take cfg.sequence_length ++
        List.replicate (cfg.sequence_length - (encodeRaw cfg text).length) cfg.pad_id := by
  refine ⟨?_, rfl⟩
  unfold encode padTrunc
  rw [List.length_append, List.length_take, List.length_replicate]
  omega

/-- C5: `encode` segments each word by repeated greedy longest-prefix matching
(`bestMatch` returns an actual match of maximal consumed length), falls back to
a single unknown-token id for the whole word when matching fails, and on the
spec's concrete scenario (vocabulary `["[PAD]","[UNK]","[MASK]","un","##able","do"]`,
`sequence_length` 5) encodes `"doable"` as the ids of `"do"` and `"##able"`
followed by three padding ids. -/
theorem greedy_segmentation_spec :
    (∀ (vocab : List (List Char)) (isCont : Bool) (rest : List Char) (j : Nat)
        (p : List Char), bestMatch vocab isCont rest = some (j, p) →
      j < vocab.length ∧ matchPiece isCont (vocab.getD j []) rest = some p ∧
        ∀ (k : Nat), k < vocab.length → ∀ (q : List Char),
          matchPiece isCont (vocab.getD k []) rest = some q → q.length ≤ p.length) ∧
    (∀ (vocab : List (List Char)) (unk : Nat) (w : List Char),
      segGo vocab w.length false w = none → segmentWord vocab unk w = [unk]) ∧
    encode exTok "doable".data = [5, 4, 0, 0, 0] := by
  refine ⟨?_, ?_, by decide⟩
  · intro vocab isCont rest j p h
    exact ⟨(bestMatch_sound h).1, (bestMatch_sound h).2, bestMatch_maximal h⟩
  · intro vocab unk w h
    unfold segmentWord
    rw [h]

/-- Witness for C5: the greedy matcher on the concrete scenario. -/
theorem greedy_segmentation_witness :
    bestMatch exVocab false "doable".data = some (5, "do".data) ∧
      (5 < exVocab.length ∧
        matchPiece false (exVocab.getD 5 []) "doable".data = some "do".data ∧
        ∀ (k : Nat), k < exVocab.length → ∀ (q : List Char),
          matchPiece false (exVocab.getD k []) "doable".data = some q →
            q.length ≤ "do".data.length) :=
  ⟨by decide, greedy_segmentation_spec.1 exVocab false "doable".data 5 "do".data (by decide)⟩

/-- C6: `encode` never fails — a non-empty word always yields at least one id,
with the unknown-token id as fallback — and `decode` fails with
`invalidTokenError` if and only if some id lies outside `[0, vocabulary_size)`. -/
theorem decode_error_spec :
    (∀ (vocab : List (List Char)) (padId : Nat) (ids : List Nat),
      decode vocab padId ids = .error .invalidTokenError ↔
        ∃ i ∈ ids, vocab.length ≤ i) ∧
    (∀ (vocab : List (List Char)) (unk : Nat) (w : List Char), w ≠ [] →
      segmentWord vocab unk w ≠ []) := by
  constructor
  · intro vocab padId ids
    unfold decode
    split
    · rename_i hall
      simp only [reduceCtorEq, false_iff]
      rw [List.all_eq_true] at hall
      rintro ⟨i, hi, hle⟩
      have := hall i hi
      simp only [decide_eq_true_eq] at this
      omega
    · rename_i hall
      simp only [true_iff]
      rw [List.all_eq_true] at hall
      push_neg at hall
      obtain ⟨i, hi, hlt⟩ := hall
      refine ⟨i, hi, ?_⟩
      simpa using hlt
  · exact fun vocab unk w hw => segmentWord_ne_nil vocab unk w hw

/-- Witness for C6: an out-of-range id is rejected, a real word segments. -/
theorem decode_error_witness :
    (decode exVocab 0 [7] = .error .invalidTokenError ↔ ∃ i ∈ [7], exVocab.length ≤ i) ∧
      ("do".data ≠ ([] : List Char) ∧ segmentWord exVocab 1 "do".data ≠ []) :=
  ⟨decode_error_spec.1 exVocab 0 [7],
    by decide, decode_error_spec.2 exVocab 1 "do".data (by decide)⟩

/-- C9: `encode` is a pure function of the immutable configuration — identical
texts give identical outputs — and for a duplicate-free vocabulary the
maximal-length prefix match at each step is unique: two matches of equal
(maximal) length come from the same vocabulary index and consume the same
piece. -/
theorem encode_pure_unique_match :
    (∀ (cfg : TokConfig) (t₁ t₂ : List Char), t₁ = t₂ →
      encode cfg t₁ = encode cfg t₂) ∧
    (∀ (vocab : List (List Char)), vocab.Nodup → ∀ (isCont : Bool) (rest : List Char)
        (j₁ j₂ : Nat) (p₁ p₂ : List Char),
      j₁ < vocab.length → j₂ < vocab.length →
      matchPiece isCont (vocab.getD j₁ []) rest = some p₁ →
      matchPiece isCont (vocab.getD j₂ []) rest = some p₂ →
      p₁.length = p₂.length → j₁ = j₂ ∧ p₁ = p₂) := by
  constructor
  · intro cfg t₁ t₂ h
    rw [h]
  · intro vocab hnd isCont rest j₁ j₂ p₁ p₂ h₁ h₂ hm₁ hm₂ hlen
    have hp : p₁ = p₂ := by
      obtain ⟨t₁, ht₁⟩ := (matchPiece_consumes hm₁).2
      obtain ⟨t₂, ht₂⟩ := (matchPiece_consumes hm₂).2
      exact (List.append_inj (ht₁.trans ht₂.symm) hlen).1
    subst hp
    refine ⟨?_, rfl⟩
    have he : vocab.getD j₁ [] = vocab.getD j₂ [] := by
      cases isCont
      · rw [(matchPiece_false_some hm₁).1, (matchPiece_false_some hm₂).1]
      · rw [(matchPiece_true_some hm₁).1, (matchPiece_true_some hm₂).1]
    rw [List.getD_eq_getElem _ _ h₁, List.getD_eq_getElem _ _ h₂] at he
    exact (List.Nodup.getElem_inj_iff hnd).mp he

/-- Witness for C9 on the concrete vocabulary. -/
theorem encode_pure_unique_match_witness :
    encode exTok "doable".data = encode exTok "doable".data ∧ (5 = 5 ∧ "do".data = "do".data) :=
  ⟨encode_pure_unique_match.1 exTok "doable".data "doable".data rfl,
    encode_pure_unique_match.2 exVocab (by decide) false "doable".data 5 5
      "do".data "do".data (by decide) (by decide) (by decide) (by decide) rfl⟩

/-- C4 counterexample: the round trip is NOT normalization-only for every text —
a word with no vocabulary match is replaced by the unknown token, so
`decode (encode "xyz")` yields `"[UNK]"`, not the normalized `"xyz"`. -/
theorem decode_encode_round_cex :
    decode exTok.vocab exTok.pad_id (encode exTok "xyz".data)
      ≠ .ok (joinWords (splitWords ("xyz".data.map exTok.norm))) := by
  decide

/-- C4 (amended): `decode (encode T)` equals the single-space join of the
whitespace-split normalized text — the lossy-but-bounded round trip — provided
every normalized word segments fully against the vocabulary (no unknown-token
fallback), the untruncated id sequence fits within `sequence_length`, no
produced id is the padding id, and the padding id is in range. -/
theorem decode_encode_round (cfg : TokConfig) (text : List Char)
    (hseg : ∀ w ∈ splitWords (text.map cfg.norm),
      (segGo cfg.vocab w.length false w).isSome)
    (hfit : (encodeRaw cfg text).length ≤ cfg.sequence_length)
    (hpad : cfg.pad_id ∉ encodeRaw cfg text)
    (hpadlt : cfg.pad_id < cfg.vocab.length) :
    decode cfg.vocab cfg.pad_id (encode cfg text)
      = .ok (joinWords (splitWords (text.map cfg.norm))) := by
  have htake : (encodeRaw cfg text).take cfg.sequence_length = encodeRaw cfg text :=
    List.take_of_length_le hfit
  have hlt := encodeRaw_lt cfg text hseg
  unfold encode padTrunc
  rw [htake]
  unfold decode
  rw [if_pos]
  · unfold decodeTokens
    rw [List.filter_append, filter_replicate_ne_self, List.append_nil,
      List.filter_eq_self.mpr]
    · unfold encodeRaw
      exact congrArg Except.ok
        (decode_flatten cfg.vocab cfg.unk_id (splitWords (text.map cfg.norm))
          (splitWords_ne_nil _) hseg).2
    · intro a ha
      simp only [decide_eq_true_eq, ne_eq]
      intro h
      exact hpad (h ▸ ha)
  · rw [List.all_eq_true]
    intro i hi
    rcases List.mem_append.mp hi with hi | hi
    · simpa using hlt i hi
    · have := List.eq_of_mem_replicate hi
      subst this
      simpa using hpadlt

/-- Witness for C4 on the spec's concrete scenario (`"doable"` round-trips). -/
theorem decode_encode_round_witness :
    (∀ w ∈ splitWords ("doable".data.map exTok.norm),
      (segGo exTok.vocab w.length false w).isSome) ∧
    (encodeRaw exTok "doable".data).length ≤ exTok.sequence_length ∧
    exTok.pad_id ∉ encodeRaw exTok "doable".data ∧
    exTok.pad_id < exTok.vocab.length ∧
    decode exTok.vocab exTok.pad_id (encode exTok "doable".data)
      = .ok (joinWords (splitWords ("doable".data.map exTok.norm))) :=
  ⟨by decide, by decide, by decide, by decide,
    decode_encode_round exTok "doable".data (by decide) (by decide) (by decide) (by decide)⟩

end TransformerPretraining
